import Mathlib

/-!
Verification development for the chunk-conversion pipeline of
`python/eeglab_to_chunks.py` (react-series-data-viewer).

The pipeline pads and reshapes each resolution level of a multi-channel
signal into fixed-size chunks, builds a deduplicated multi-resolution
pyramid via polyphase resampling, serializes each chunk into a binary
record, and writes a directory tree plus an index document.

Modelling conventions:
* numpy arrays become nested lists; all source operations act on the last
  (sample) axis, so the rank-1 versions of `pad_channels` and
  `channels_to_chunks` carry the source names and the tensor pipeline maps
  them over the leading axes exactly as numpy broadcasting does;
* sample values are rationals (pure data movement, no float arithmetic is
  performed on them by the code under study);
* `scipy.signal.resample_poly(x, up=1, down=d)` is modelled by an abstract
  per-trace resampler together with its documented output-length law
  `len = ceil(len(x) / d)`; `down < 1` makes scipy raise, modelled as
  `none`;
* Python floats only enter through `math.ceil(math.log N / math.log S)`
  and the clamp comparison, both are modelled by their exact-real values
  (`Nat.clog` and integer comparison);
* fallible Python code (exceptions) returns `Option` / `Except`.
-/

/-- Number of chunks: `math.ceil(channels.shape[-1] / chunk_size)` from
`pad_channels`, i.e. ceiling division, as exact arithmetic. -/
def numChunks (n s : Nat) : Nat := (n + s - 1) / s

/-- The padding length `num_chunks * chunk_size - channels.shape[-1]`
computed by `pad_channels`. -/
def padLen (n s : Nat) : Nat := numChunks n s * s - n

/-- Source `pad_channels`, action on one trace (the last axis): append
`padLen` zero samples at the end of the trace. -/
def pad_channels (xs : List ℚ) (s : Nat) : List ℚ :=
  xs ++ List.replicate (padLen xs.length s) 0

/-- Split a list into `k` consecutive groups of `s` elements (row-major
reshape of the last axis into `(k, s)`). -/
def takeChunks (k s : Nat) (xs : List ℚ) : List (List ℚ) :=
  match k with
  | 0 => []
  | k + 1 => xs.take s :: takeChunks k s (xs.drop s)

/-- Source `channels_to_chunks`, action on one trace: pad, then reshape the
padded sample axis into `(chunk-count, chunk_size)`. -/
def channels_to_chunks (xs : List ℚ) (s : Nat) : List (List ℚ) :=
  takeChunks (numChunks xs.length s) s (pad_channels xs s)

/-- A resolution level: channel x trace x sample nested lists, the
list-model of the numpy tensor fed to `downsample_channels`. -/
abbrev Level : Type := List (List (List ℚ))

/-- The numpy `channels.shape[-1]` of a (rectangular) level: length of
the first trace of the first channel. -/
def tensorLastDim (t : Level) : Nat := ((t.headD []).headD []).length

/-- Fuel-based ceiling logarithm, structural so that it evaluates by
kernel reduction; `ceilLogAux s fuel m` computes ceil(log_s m) for
`m <= fuel`. -/
def ceilLogAux (s : Nat) : Nat → Nat → Nat
  | 0, _ => 0
  | fuel + 1, m => if m ≤ 1 then 0 else ceilLogAux s fuel ((m + s - 1) / s) + 1

/-- Exact-real value of `math.ceil(math.log(n) / math.log(s))` from
`create_downsampled_channels_list`, i.e. ceil(log_s n); proved equal to
`Nat.clog` below. -/
def ceilLog (s n : Nat) : Nat := ceilLogAux s n n

/-- The resample factor actually passed to `signal.resample_poly` for
candidate level `d` of a level with `n` samples: `s ^ d`, clamped to
`n / (2 * s)` (floor) when `n / s ^ d <= 2 * s` would hold; factor 1
for level 0 (no resampling). A value of 0 models the crash paths
(scipy rejects `down < 1`; `s = 0` makes the size computation divide
by zero). -/
def downFactor (s n d : Nat) : Nat :=
  if d = 0 then 1
  else if n ≤ 2 * s * s ^ d then n / (2 * s) else s ^ d

/-- The sample-count `ceil(n / down)` that `signal.resample_poly(x, up=1,
down=down)` produces from `n` input samples (its documented output
length), as a function of the candidate level `d`. -/
def dLen (s n d : Nat) : Nat := numChunks n (downFactor s n d)

/-- Source `downsample_channels`: level 0 is returned unmodified;
otherwise the clamped factor is computed from the level's last-axis
length and the whole tensor is resampled along the last axis
(`resample` abstracts `signal.resample_poly(.., up=1, down, axis=-1)`
applied to each trace). `none` models the exception paths (factor 0). -/
def downsample_channels (resample : List ℚ → Nat → List ℚ) (t : Level)
    (s d : Nat) : Option Level :=
  if d = 0 then some t
  else if downFactor s (tensorLastDim t) d = 0 then none
  else some (t.map (fun ch => ch.map
    (fun tr => resample tr (downFactor s (tensorLastDim t) d))))

/-- The list comprehension over candidate levels in
`create_downsampled_channels_list`: evaluated in order, any raised
exception aborting the whole computation. -/
def downsampleSeq (resample : List ℚ → Nat → List ℚ) (t : Level) (s : Nat) :
    List Nat → Option (List Level)
  | [] => some []
  | d :: ds =>
    match downsample_channels resample t s d, downsampleSeq resample t s ds with
    | some x, some xs => some (x :: xs)
    | _, _ => none

/-- The `sizes` / `unique_sized` loop of
`create_downsampled_channels_list`: keep the first level of each
distinct last-axis length, preserving order; `seen` is the set of
lengths already kept. -/
def dedupByLen : List Level → List Nat → List Level
  | [], _ => []
  | t :: ts, seen =>
    if tensorLastDim t ∈ seen then dedupByLen ts seen
    else t :: dedupByLen ts (tensorLastDim t :: seen)

/-- Source `create_downsampled_channels_list`: candidate level count
ceil(log_s n), one `downsample_channels` call per candidate, then
deduplication by resulting length. `none` models the crashes: `n = 0`
(`math.log(0)` raises), `s <= 1` (`math.log(1)` gives 0 so the ceil
divides by zero; `math.log(0)` raises for `s = 0`), and any failing
`downsample_channels` call. -/
def create_downsampled_channels_list (resample : List ℚ → Nat → List ℚ)
    (t : Level) (s : Nat) : Option (List Level) :=
  if tensorLastDim t = 0 ∨ s ≤ 1 then none
  else
    match downsampleSeq resample t s (List.range (ceilLog s (tensorLastDim t))) with
    | none => none
    | some ls => some (dedupByLen ls [])

/-- A concrete stand-in for `signal.resample_poly` used for witnesses and
counterexamples: it satisfies scipy's output-length law
`len = ceil(len(x) / down)`. -/
def zeroResample (xs : List ℚ) (d : Nat) : List ℚ :=
  List.replicate (numChunks xs.length d) 0

/-- The maximal run of non-separator characters at the end of a path:
the `tail` part of `os.path.split` before any post-processing (CPython
splits at `p.rfind(sep) + 1`). Paths are modelled as character lists. -/
def rawSplitTail (p : List Char) : List Char :=
  (p.reverse.takeWhile (fun c => c != '/')).reverse

/-- Everything up to and including the last separator: the `head` part
of `os.path.split` before its trailing-separator strip. -/
def rawSplitHead (p : List Char) : List Char :=
  p.take (p.length - (rawSplitTail p).length)

/-- The trailing-separator strip that `posixpath.split` applies to the
head: `if head and head != sep * len(head): head = head.rstrip(sep)`. -/
def stripTrailingSep (h : List Char) : List Char :=
  if h.all (fun c => c = '/') then h
  else (h.reverse.dropWhile (fun c => c = '/')).reverse

/-- `os.path.split` for POSIX paths. -/
def os_path_split (p : List Char) : List Char × List Char :=
  (stripTrailingSep (rawSplitHead p), rawSplitTail p)

/-- Extension split on a separator-free file name: split at the last
dot provided some non-dot character precedes it (CPython scans past the
basename's leading dots), otherwise no extension. -/
def splitExtName (name : List Char) : List Char × List Char :=
  let extRev := name.reverse.takeWhile (fun c => c != '.')
  if extRev.length = name.length then (name, [])
  else
    let d := name.length - extRev.length - 1
    if (name.take d).any (fun c => c != '.') then (name.take d, name.drop d)
    else (name, [])

/-- `os.path.splitext` for POSIX paths: CPython's `genericpath._splitext`
requires the last dot to come strictly after the last separator and skips
the basename's leading dots, which is exactly an extension split of the
basename with the directory part untouched. -/
def os_path_splitext (p : List Char) : List Char × List Char :=
  (rawSplitHead p ++ (splitExtName (rawSplitTail p)).1,
    (splitExtName (rawSplitTail p)).2)

/-- One step of `posixpath.join`: an absolute component restarts the
path, otherwise a separator is inserted unless the accumulator is empty
or already ends with one. -/
def os_path_join_one (acc b : List Char) : List Char :=
  if b.head? = some '/' then b
  else if acc = [] ∨ acc.getLast? = some '/' then acc ++ b
  else acc ++ '/' :: b

/-- `os.path.join(a, *parts)` for POSIX paths. -/
def os_path_join (a : List Char) (parts : List (List Char)) : List Char :=
  parts.foldl os_path_join_one a

/-- Source `chunk_dir_path`: strip the input's extension, split off its
parent, substitute the optional destination root and prefix, join, and
append the literal suffix `.chunks`. -/
def chunk_dir_path (input : List Char) (pfx : Option (List Char))
    (dest : Option (List Char)) : List Char :=
  os_path_join (dest.getD (os_path_split (os_path_splitext input).1).1)
    [pfx.getD [], (os_path_split (os_path_splitext input).1).2]
    ++ ".chunks".data

/-- The directory name the spec describes, written from the spec's words:
destinationRoot-or-the-input's-parent, then prefix-or-nothing, then the
input's base name with its extension removed, joined and suffixed with
`.chunks`. -/
def specChunkDir (input : List Char) (pfx : Option (List Char))
    (dest : Option (List Char)) : List Char :=
  os_path_join (dest.getD (os_path_split input).1)
    [pfx.getD [], (os_path_splitext (os_path_split input).2).1]
    ++ ".chunks".data

/-- Outcome of a raw filesystem call (the environment's behaviour,
passed in as a parameter): success, an already-exists error
(`errno.EEXIST` / `FileExistsError`), a not-found error
(`errno.ENOENT` / `FileNotFoundError`), or any other `OSError`. -/
inductive FsOutcome
  | ok
  | alreadyExists
  | notFound
  | otherError
deriving DecidableEq

/-- A propagated Python exception in the writer: the original `OSError`
(re-raised by `create_path_dirs`), or the `NameError` produced by the
dead `except e:` clause in `write_chunks` (the name `e` is unbound when
that clause is evaluated, so evaluating it raises `NameError` while the
original exception is still propagating). -/
inductive PyError
  | osError (r : FsOutcome)
  | nameError
deriving DecidableEq

/-- Source `create_path_dirs`: `os.makedirs` wrapped so that an
`OSError` with `errno == errno.EEXIST` is swallowed and every other
`OSError` is re-raised unchanged. -/
def create_path_dirs (r : FsOutcome) : Except FsOutcome Unit :=
  match r with
  | .ok => .ok ()
  | .alreadyExists => .ok ()
  | e => .error e

/-- The stale-tree removal prelude of source `write_chunks`:
`shutil.rmtree(join(chunk_dir, 'raw'))` with `FileNotFoundError`
swallowed; on any other exception the handler `except e: raise e`
evaluates the unbound name `e` and a `NameError` propagates instead
(the conversion still aborts). -/
def remove_stale_raw (r : FsOutcome) : Except PyError Unit :=
  match r with
  | .ok => .ok ()
  | .notFound => .ok ()
  | _ => .error .nameError

/-- Modelled from the spec: the compiled protobuf module
`protocol_buffers/chunk_pb2` (the `FloatChunk` message) is not under
`src/`; the spec fixes the record to the three fields `index:uint32`,
`downsampling:uint32`, `samples:float[chunkSize]` in that order. Bytes
are naturals below 256; a 32-bit word is laid out little-endian. -/
def u32le (n : Nat) : List Nat :=
  [n % 256, n / 256 % 256, n / 65536 % 256, n / 16777216 % 256]

/-- Modelled from the spec: reassemble a little-endian 32-bit word. -/
def u32dec (b0 b1 b2 b3 : Nat) : Nat :=
  b0 + 256 * b1 + 65536 * b2 + 16777216 * b3

/-- Modelled from the spec: serialization of one chunk record — the
unsigned chunk index, then the unsigned level ordinal, then the samples
(each sample by its 32-bit float word), in that fixed field order. -/
def encode_chunk_bytes (index downsampling : Nat) (samples : List Nat) : List Nat :=
  u32le index ++ u32le downsampling ++ samples.flatMap u32le

/-- Modelled from the spec: decode the sample array, four bytes per
sample. -/
def decodeSamples : List Nat → Option (List Nat)
  | [] => some []
  | b0 :: b1 :: b2 :: b3 :: rest =>
      (decodeSamples rest).map (fun ws => u32dec b0 b1 b2 b3 :: ws)
  | _ => none

/-- Modelled from the spec: decode one chunk record back into its
(index, downsampling, samples) triple. -/
def decode_chunk_bytes : List Nat → Option (Nat × Nat × List Nat)
  | b0 :: b1 :: b2 :: b3 :: c0 :: c1 :: c2 :: c3 :: rest =>
      (decodeSamples rest).map
        (fun ws => (u32dec b0 b1 b2 b3, u32dec c0 c1 c2 c3, ws))
  | _ => none

/-- The in-memory protobuf message `chunk_pb.FloatChunk(index=...,
downsampling=..., samples=chunk)` built by source `encode_chunk` (its
byte serialization is the spec-modelled layer above). -/
structure FloatChunk where
  index : Nat
  downsampling : Nat
  samples : List ℚ
deriving DecidableEq

/-- Source `encode_chunk`: package one chunk with its positional
metadata into the record that gets serialized. -/
def encode_chunk (chunk : List ℚ) (index downsampling : Nat) : FloatChunk :=
  ⟨index, downsampling, chunk⟩

/-- A chunked level: channel x trace x chunk-index x sample. -/
abbrev ChunkedLevel : Type := List (List (List (List ℚ)))

/-- Action of source `channels_to_chunks` on a whole level tensor: the
pad-then-reshape applies to the last axis under every channel and trace
(the `expand_dims(axis=-2)` inside it creates the chunk-index axis). -/
def channels_to_chunks_level (t : Level) (s : Nat) : ChunkedLevel :=
  t.map (fun ch => ch.map (fun tr => channels_to_chunks tr s))

/-- Source `create_chunks_from_channels_list`: chunk every level. -/
def create_chunks_from_channels_list (ls : List Level) (s : Nat) :
    List ChunkedLevel :=
  ls.map (fun t => channels_to_chunks_level t s)

/-- The numpy `channels.shape` of a (rectangular) chunked level, read
off the nested list heads. -/
def chunkShape (t : ChunkedLevel) : List Nat :=
  [t.length, (t.headD []).length, ((t.headD []).headD []).length,
    (((t.headD []).headD []).headD []).length]

/-- The dictionary written by source `write_index_json`. -/
structure IndexJson where
  timeInterval : ℚ × ℚ
  chunkSize : Nat
  downsamplings : List Nat
  shapes : List (List Nat)
  traceTypes : List (Nat × String)
deriving DecidableEq

/-- Source `write_index_json`: the index document plus the file path it
is written to, `os.path.join(chunk_dir, 'index.json')`. The
`trace_types` parameter defaults to the empty dict at the call site in
`write_eeglab_chunks`. -/
def write_index_json (chunk_dir : List Char) (time_interval : ℚ × ℚ)
    (chunk_size : Nat) (downsamplings : List Nat)
    (channel_chunks_list : List ChunkedLevel)
    (trace_types : List (Nat × String)) : List Char × IndexJson :=
  (os_path_join chunk_dir ["index.json".data],
    ⟨time_interval, chunk_size, downsamplings,
      channel_chunks_list.map chunkShape, trace_types⟩)

/-- Source `write_chunks`, the pure write plan after the stale-tree
removal (modelled separately by `remove_stale_raw`): one file per
(level, channel, trace, chunk) at
`join(chunk_dir, 'raw', str(level), str(channel), str(trace),
str(chunk)) + '.buf'` (components kept as a list), holding the encoded
record. -/
def write_chunks (chunk_dir : List Char)
    (channel_chunks_list : List ChunkedLevel) :
    List (List (List Char) × FloatChunk) :=
  channel_chunks_list.enum.flatMap (fun p =>
    p.2.enum.flatMap (fun q =>
      q.2.enum.flatMap (fun u =>
        u.2.enum.map (fun v =>
          ([chunk_dir, "raw".data, (toString p.1).data, (toString q.1).data,
            (toString u.1).data, (toString v.1 ++ ".buf").data],
            encode_chunk v.2 v.1 p.1)))))

/-- Source `eeglab_to_chunks`, downstream of the external reader: the
reader's channel x sample matrix gets a singleton trace axis
(`expand_dims(channels, axis=-2)`), then the pyramid is built and every
kept level is chunked. -/
def eeglab_to_chunks (resample : List ℚ → Nat → List ℚ)
    (channels : List (List ℚ)) (s : Nat) : Option (List ChunkedLevel) :=
  match create_downsampled_channels_list resample
      (channels.map (fun c => [c])) s with
  | none => none
  | some lvls => some (create_chunks_from_channels_list lvls s)

/-- Source `write_eeglab_chunks`: derive the chunk directory, convert,
then write the index document (downsamplings = `range(len(levels))`,
trace types defaulted to empty) and the chunk tree. -/
def write_eeglab_chunks (resample : List ℚ → Nat → List ℚ)
    (channels : List (List ℚ)) (time_interval : ℚ × ℚ)
    (path : List Char) (pfx dest : Option (List Char)) (s : Nat) :
    Option ((List Char × IndexJson) × List (List (List Char) × FloatChunk)) :=
  match eeglab_to_chunks resample channels s with
  | none => none
  | some ccl =>
      some (write_index_json (chunk_dir_path path pfx dest) time_interval s
          (List.range ccl.length) ccl [],
        write_chunks (chunk_dir_path path pfx dest) ccl)

/-- A level tensor is rectangular with extents channel = a, trace = b,
sample = c (numpy arrays are rectangular by construction; the list model
states it explicitly). -/
def rect3 (t : Level) (a b c : Nat) : Prop :=
  t.length = a ∧ ∀ ch ∈ t, ch.length = b ∧ ∀ tr ∈ ch, tr.length = c

/-- A chunked level tensor is rectangular with extents channel = a,
trace = b, chunk-count = k, chunk-length = d: exactly the persisted
extent at every node of the chunk tree. -/
def rect4 (t : ChunkedLevel) (a b k d : Nat) : Prop :=
  t.length = a ∧ ∀ ch ∈ t, ch.length = b ∧
    ∀ tr ∈ ch, tr.length = k ∧ ∀ c ∈ tr, c.length = d

lemma numChunks_mul_ge {n s : Nat} (hs : 0 < s) : n ≤ numChunks n s * s := by
  have h1 : n + s - 1 < numChunks n s * s + s := by
    have h := (@Nat.div_lt_iff_lt_mul s (n + s - 1) (numChunks n s + 1) hs).mp
      (Nat.lt_succ_self _)
    calc n + s - 1 < (numChunks n s + 1) * s := h
    _ = numChunks n s * s + s := by rw [Nat.succ_mul]
  omega

lemma numChunks_mul_lt {n s : Nat} (hs : 0 < s) : numChunks n s * s < n + s := by
  have h1 : numChunks n s * s ≤ n + s - 1 := Nat.div_mul_le_self (n + s - 1) s
  omega

lemma padLen_lt {n s : Nat} (hs : 0 < s) : padLen n s < s := by
  have h1 := @numChunks_mul_lt n s hs
  have h2 := @numChunks_mul_ge n s hs
  simp only [padLen]
  omega

lemma pad_channels_length (xs : List ℚ) {s : Nat} (hs : 0 < s) :
    (pad_channels xs s).length = numChunks xs.length s * s := by
  have := @numChunks_mul_ge xs.length s hs
  simp [pad_channels, padLen]
  omega

lemma takeChunks_flatten (k s : Nat) (xs : List ℚ) :
    (takeChunks k s xs).flatten = xs.take (k * s) := by
  induction k generalizing xs with
  | zero => simp [takeChunks]
  | succ k ih =>
      simp only [takeChunks, List.flatten_cons, ih]
      rw [Nat.succ_mul, Nat.add_comm (k * s) s, List.take_add]

lemma pad_channels_take (xs : List ℚ) (s : Nat) :
    (pad_channels xs s).take xs.length = xs := by
  simpa [pad_channels] using List.take_left xs (List.replicate (padLen xs.length s) 0)

lemma pad_channels_drop (xs : List ℚ) (s : Nat) :
    (pad_channels xs s).drop xs.length = List.replicate (padLen xs.length s) 0 := by
  simpa [pad_channels] using List.drop_left xs (List.replicate (padLen xs.length s) 0)

/-- C1: for every trace of length N > 0 and every chunk size S > 0,
partitioning it into chunks of size S via `channels_to_chunks`
(pad-then-reshape) and concatenating the chunks in index order, then
truncating to the first N samples, reproduces the original trace exactly. -/
theorem chunk_roundtrip (xs : List ℚ) (s : Nat)
    (hn : 0 < xs.length) (hs : 0 < s) :
    ((channels_to_chunks xs s).flatten).take xs.length = xs := by
  rw [channels_to_chunks, takeChunks_flatten]
  rw [List.take_take, Nat.min_eq_left (numChunks_mul_ge hs)]
  exact pad_channels_take xs s

/-- Witness for C1 at a concrete input: the trace [1, 2, 3] with chunk
size 2 round-trips. -/
theorem chunk_roundtrip_witness :
    0 < ([(1 : ℚ), 2, 3]).length ∧ 0 < 2 ∧
      ((channels_to_chunks [(1 : ℚ), 2, 3] 2).flatten).take 3 = [(1 : ℚ), 2, 3] :=
  ⟨by decide, by decide, chunk_roundtrip [(1 : ℚ), 2, 3] 2 (by decide) (by decide)⟩

/-- C4: for every trace length N and chunk size S > 0, the padding
computed by `pad_channels` as ceil(N/S)*S - N satisfies 0 <= padding < S
(the lower bound expressed as N <= ceil(N/S)*S), and the padded trace is
the original trace followed by exactly that many zero samples. -/
theorem padding_bound (xs : List ℚ) (s : Nat) (hs : 0 < s) :
    padLen xs.length s < s ∧
      xs.length ≤ numChunks xs.length s * s ∧
      (pad_channels xs s).take xs.length = xs ∧
      (pad_channels xs s).drop xs.length =
        List.replicate (padLen xs.length s) 0 :=
  ⟨padLen_lt hs, numChunks_mul_ge hs, pad_channels_take xs s, pad_channels_drop xs s⟩

/-- Witness for C4 at a concrete input: the trace [5, 7] with chunk
size 3 gets padding 1 < 3, and the padded trace is [5, 7, 0]. -/
theorem padding_bound_witness :
    padLen 2 3 < 3 ∧ 2 ≤ numChunks 2 3 * 3 ∧
      (pad_channels [(5 : ℚ), 7] 3).take 2 = [(5 : ℚ), 7] ∧
      (pad_channels [(5 : ℚ), 7] 3).drop 2 = List.replicate (padLen 2 3) 0 :=
  padding_bound [(5 : ℚ), 7] 3 (by decide)

lemma ceilLogAux_eq_clog {s : Nat} (hs : 2 ≤ s) :
    ∀ fuel m, m ≤ fuel → ceilLogAux s fuel m = Nat.clog s m := by
  intro fuel
  induction fuel with
  | zero =>
      intro m hm
      have : m = 0 := Nat.le_zero.mp hm
      simp [this, ceilLogAux]
  | succ fuel ih =>
      intro m hm
      by_cases h1 : m ≤ 1
      · have : Nat.clog s m = 0 := by
          interval_cases m <;> simp [Nat.clog_one_right]
        simp [ceilLogAux, h1, this]
      · have hm2 : 2 ≤ m := by omega
        have hlt : (m + s - 1) / s < m := by
          have hplus : m + s ≤ m * s := Nat.add_le_mul hm2 hs
          have := (@Nat.div_lt_iff_lt_mul s (m + s - 1) m (by omega)).mpr (by omega)
          exact this
        have hrec := @Nat.clog_of_two_le s m (by omega) hm2
        have h2 := ih ((m + s - 1) / s) (by omega)
        simp [ceilLogAux, h1, h2, hrec]

/-- For a real chunk size (s >= 2) the fuel-based ceiling log agrees with
Mathlib's ceiling logarithm, hence with the exact value of the source's
`math.ceil(math.log(n) / math.log(s))`. -/
lemma ceilLog_eq_clog {s : Nat} (hs : 2 ≤ s) (n : Nat) :
    ceilLog s n = Nat.clog s n :=
  ceilLogAux_eq_clog hs n n (Nat.le_refl n)

lemma zeroResample_law : ∀ (xs : List ℚ) (d : Nat), 0 < d →
    (zeroResample xs d).length = numChunks xs.length d := by
  intro xs d _
  simp [zeroResample]

/-- C2 (amended): for every level whose sample-count N satisfies
2 <= N <= S, the pyramid builder returns exactly level 0, the unmodified
input (this covers the documented boundary N=40000, S=50000). The
original claim ranged over all N < 2*S, where it fails, see
`pyramid_small_claim_false`. -/
theorem pyramid_single_level (resample : List ℚ → Nat → List ℚ) (t : Level)
    (s : Nat) (h2 : 2 ≤ tensorLastDim t) (hts : tensorLastDim t ≤ s) :
    create_downsampled_channels_list resample t s = some [t] := by
  have hs2 : 2 ≤ s := le_trans h2 hts
  have hn0 : ¬ tensorLastDim t = 0 := by omega
  have hs1 : ¬ s ≤ 1 := by omega
  have hL : ceilLog s (tensorLastDim t) = 1 := by
    rw [ceilLog_eq_clog hs2]
    exact Nat.clog_eq_one h2 hts
  simp [create_downsampled_channels_list, hn0, hs1, hL, List.range_succ,
    downsampleSeq, downsample_channels, dedupByLen]

/-- Counterexample to C2 as stated: the level [[[1, 2, 3]]] has N = 3
samples and chunk size S = 2 satisfies N < 2*S, yet the builder yields
no pyramid at all (the clamped resample factor floor(3 / 4) = 0 makes
`signal.resample_poly` raise), in particular no level 0. -/
theorem pyramid_small_claim_false :
    tensorLastDim [[[(1 : ℚ), 2, 3]]] < 2 * 2 ∧
      create_downsampled_channels_list zeroResample [[[(1 : ℚ), 2, 3]]] 2 = none := by
  constructor
  · decide
  · decide

/-- Witness for C2 (amended) at the documented boundary: N = 40000,
S = 50000 keeps exactly level 0. -/
theorem pyramid_single_level_witness :
    2 ≤ tensorLastDim [[List.replicate 40000 (0 : ℚ)]] ∧
      tensorLastDim [[List.replicate 40000 (0 : ℚ)]] ≤ 50000 ∧
      create_downsampled_channels_list zeroResample
          [[List.replicate 40000 (0 : ℚ)]] 50000
        = some [[[List.replicate 40000 (0 : ℚ)]]] := by
  have hdim : tensorLastDim [[List.replicate 40000 (0 : ℚ)]] = 40000 := by
    simp only [tensorLastDim, List.headD_cons, List.length_replicate]
  refine ⟨by rw [hdim]; norm_num, by rw [hdim]; norm_num, ?_⟩
  exact pyramid_single_level zeroResample _ 50000 (by rw [hdim]; norm_num)
    (by rw [hdim]; norm_num)

lemma numChunks_le_iff {n a k : Nat} (ha : 0 < a) :
    numChunks n a ≤ k ↔ n ≤ k * a := by
  constructor
  · intro h
    have h1 : n ≤ numChunks n a * a := numChunks_mul_ge ha
    exact le_trans h1 (Nat.mul_le_mul_right a h)
  · intro h
    have h1 : n + a - 1 < (k + 1) * a := by
      have : (k + 1) * a = k * a + a := Nat.succ_mul k a
      omega
    have h2 := (@Nat.div_lt_iff_lt_mul a (n + a - 1) (k + 1) ha).mpr h1
    simp only [numChunks]
    omega

lemma numChunks_antitone {n a b : Nat} (ha : 0 < a) (hab : a ≤ b) :
    numChunks n b ≤ numChunks n a := by
  have hb : 0 < b := lt_of_lt_of_le ha hab
  refine (numChunks_le_iff hb).mpr ?_
  exact le_trans (numChunks_mul_ge ha) (Nat.mul_le_mul_left (numChunks n a) hab)

lemma numChunks_one (n : Nat) : numChunks n 1 = n := by
  simp [numChunks]

lemma numChunks_pos {n a : Nat} (hn : 0 < n) (ha : 0 < a) : 0 < numChunks n a := by
  by_contra h
  have h0 : numChunks n a = 0 := by omega
  have := @numChunks_mul_ge n a ha
  rw [h0] at this
  omega

lemma downFactor_mono {s n : Nat} (hs : 2 ≤ s) {d d' : Nat} (hdd : d ≤ d')
    (hp' : 0 < downFactor s n d') :
    downFactor s n d ≤ downFactor s n d' := by
  by_cases hd0 : d = 0
  · have h1 : downFactor s n d = 1 := by simp [downFactor, hd0]
    rw [h1]
    omega
  · have hd'0 : d' ≠ 0 := by omega
    have hpow : s ^ d ≤ s ^ d' := Nat.pow_le_pow_right (by omega) hdd
    simp only [downFactor, hd0, hd'0, if_false]
    by_cases hc : n ≤ 2 * s * s ^ d
    · have hc' : n ≤ 2 * s * s ^ d' :=
        le_trans hc (Nat.mul_le_mul_left (2 * s) hpow)
      simp [hc, hc']
    · by_cases hc' : n ≤ 2 * s * s ^ d'
      · simp only [hc, hc', if_true, if_false]
        refine (Nat.le_div_iff_mul_le (by omega)).mpr ?_
        have : 2 * s * s ^ d ≤ n := by omega
        calc s ^ d * (2 * s) = 2 * s * s ^ d := Nat.mul_comm _ _
        _ ≤ n := this
      · simp [hc, hc', hpow]

lemma dLen_zero (s n : Nat) : dLen s n 0 = n := by
  simp [dLen, downFactor, numChunks_one]

lemma dLen_antitone {s n : Nat} (hs : 2 ≤ s) {d d' : Nat} (hdd : d ≤ d')
    (hp : 0 < downFactor s n d) (hp' : 0 < downFactor s n d') :
    dLen s n d' ≤ dLen s n d :=
  numChunks_antitone hp (downFactor_mono hs hdd hp')

lemma downsample_channels_eq {r : List ℚ → Nat → List ℚ} {t : Level}
    {s d : Nat} {x : Level} (h : downsample_channels r t s d = some x) :
    (d = 0 ∧ x = t) ∨
      (d ≠ 0 ∧ 0 < downFactor s (tensorLastDim t) d ∧
        x = t.map (fun ch => ch.map
          (fun tr => r tr (downFactor s (tensorLastDim t) d)))) := by
  unfold downsample_channels at h
  by_cases hd0 : d = 0
  · rw [if_pos hd0] at h
    exact Or.inl ⟨hd0, (Option.some.inj h).symm⟩
  · rw [if_neg hd0] at h
    by_cases hdf : downFactor s (tensorLastDim t) d = 0
    · rw [if_pos hdf] at h
      exact absurd h (by simp)
    · rw [if_neg hdf] at h
      exact Or.inr ⟨hd0, by omega, (Option.some.inj h).symm⟩

lemma tensorLastDim_map_resample (r : List ℚ → Nat → List ℚ) (t : Level)
    (k : Nat) (ht : t ≠ []) (hch : t.headD [] ≠ []) :
    tensorLastDim (t.map (fun ch => ch.map (fun tr => r tr k)))
      = (r ((t.headD []).headD []) k).length := by
  match t, ht with
  | ch :: _, _ =>
    match ch, hch with
    | tr :: _, _ => simp [tensorLastDim]

lemma downsampleSeq_spec {r : List ℚ → Nat → List ℚ}
    (hres : ∀ (tr : List ℚ) (k : Nat), 0 < k →
      (r tr k).length = numChunks tr.length k)
    {t : Level} {s : Nat} (ht : t ≠ []) (hch : t.headD [] ≠ []) :
    ∀ (ds : List Nat) (res : List Level),
      downsampleSeq r t s ds = some res →
      res.map tensorLastDim = ds.map (dLen s (tensorLastDim t)) ∧
        ∀ d ∈ ds, 0 < downFactor s (tensorLastDim t) d := by
  intro ds
  induction ds with
  | nil =>
      intro res h
      simp [downsampleSeq] at h
      simp [h.symm]
  | cons d ds ih =>
      intro res h
      simp only [downsampleSeq] at h
      cases hx : downsample_channels r t s d with
      | none => rw [hx] at h; cases h
      | some x =>
          rw [hx] at h
          cases hxs : downsampleSeq r t s ds with
          | none => rw [hxs] at h; cases h
          | some xs =>
              rw [hxs] at h
              have hres' : res = x :: xs := (Option.some.inj h).symm
              subst hres'
              obtain ⟨ihmap, ihpos⟩ := ih xs hxs
              have hhead : tensorLastDim x = dLen s (tensorLastDim t) d ∧
                  0 < downFactor s (tensorLastDim t) d := by
                rcases downsample_channels_eq hx with ⟨hd0, hxt⟩ | ⟨hd0, hdf, hxt⟩
                · subst hd0
                  subst hxt
                  refine ⟨?_, ?_⟩
                  · rw [dLen_zero]
                  · simp [downFactor]
                · subst hxt
                  refine ⟨?_, hdf⟩
                  rw [tensorLastDim_map_resample r t _ ht hch]
                  rw [hres _ _ hdf]
                  rfl
              refine ⟨?_, ?_⟩
              · simp only [List.map_cons, ihmap, hhead.1]
              · intro e he
                rcases List.mem_cons.mp he with he0 | hem
                · subst he0; exact hhead.2
                · exact ihpos e hem

lemma mem_dedupByLen : ∀ {x : Level} {ls : List Level} {seen : List Nat},
    x ∈ dedupByLen ls seen → x ∈ ls ∧ tensorLastDim x ∉ seen := by
  intro x ls
  induction ls with
  | nil => intro seen h; simp [dedupByLen] at h
  | cons t ts ih =>
      intro seen h
      simp only [dedupByLen] at h
      by_cases hmem : tensorLastDim t ∈ seen
      · rw [if_pos hmem] at h
        obtain ⟨h1, h2⟩ := ih h
        exact ⟨List.mem_cons_of_mem t h1, h2⟩
      · rw [if_neg hmem] at h
        rcases List.mem_cons.mp h with hx | hx
        · subst hx
          exact ⟨List.mem_cons_self _ _, hmem⟩
        · obtain ⟨h1, h2⟩ := ih hx
          refine ⟨List.mem_cons_of_mem t h1, ?_⟩
          intro hc
          exact h2 (List.mem_cons_of_mem _ hc)

lemma dedupByLen_pairwise : ∀ {ls : List Level} {seen : List Nat},
    ls.Pairwise (fun a b => tensorLastDim b ≤ tensorLastDim a) →
    (dedupByLen ls seen).Pairwise (fun a b => tensorLastDim b < tensorLastDim a) := by
  intro ls
  induction ls with
  | nil => intro seen _; simp [dedupByLen]
  | cons t ts ih =>
      intro seen hp
      obtain ⟨hhd, htl⟩ := List.pairwise_cons.mp hp
      simp only [dedupByLen]
      by_cases hmem : tensorLastDim t ∈ seen
      · rw [if_pos hmem]
        exact ih htl
      · rw [if_neg hmem]
        refine List.pairwise_cons.mpr ⟨?_, ih htl⟩
        intro b hb
        obtain ⟨hbts, hbseen⟩ := mem_dedupByLen hb
        have hle : tensorLastDim b ≤ tensorLastDim t := hhd b hbts
        have hne : tensorLastDim b ≠ tensorLastDim t := by
          intro he
          exact hbseen (by rw [he]; exact List.mem_cons_self _ _)
        omega

/-- C3 (amended): for every resampler obeying the scipy output-length law
and every nonempty level with sample-count N >= 2, whenever the pyramid
builder succeeds its first kept level is the unmodified input (so level 0
has exactly N samples), and the kept levels' sample-counts are strictly
decreasing in order (hence pairwise distinct). The original claim, over
every input, fails at N = 1 where the builder keeps no level at all: see
`pyramid_monotone_claim_false`. -/
theorem pyramid_monotone (r : List ℚ → Nat → List ℚ)
    (hres : ∀ (tr : List ℚ) (k : Nat), 0 < k →
      (r tr k).length = numChunks tr.length k)
    (t : Level) (s : Nat) (ht : t ≠ []) (hch : t.headD [] ≠ [])
    (hN : 2 ≤ tensorLastDim t) (lvls : List Level)
    (hsucc : create_downsampled_channels_list r t s = some lvls) :
    lvls.head? = some t ∧
      (lvls.map tensorLastDim).head? = some (tensorLastDim t) ∧
      (lvls.map tensorLastDim).Pairwise (fun a b => b < a) := by
  unfold create_downsampled_channels_list at hsucc
  by_cases hg : tensorLastDim t = 0 ∨ s ≤ 1
  · rw [if_pos hg] at hsucc
    cases hsucc
  · rw [if_neg hg] at hsucc
    have hs2 : 2 ≤ s := by omega
    cases hseq : downsampleSeq r t s (List.range (ceilLog s (tensorLastDim t))) with
    | none => rw [hseq] at hsucc; cases hsucc
    | some ls =>
        rw [hseq] at hsucc
        have hlvls : lvls = dedupByLen ls [] := (Option.some.inj hsucc).symm
        obtain ⟨hmap, hpos⟩ := downsampleSeq_spec hres ht hch _ ls hseq
        have hL : 0 < ceilLog s (tensorLastDim t) := by
          rw [ceilLog_eq_clog hs2]
          exact Nat.clog_pos (by omega) hN
        obtain ⟨L', hLL⟩ : ∃ L', ceilLog s (tensorLastDim t) = L' + 1 :=
          ⟨ceilLog s (tensorLastDim t) - 1, by omega⟩
        rw [hLL, List.range_succ_eq_map] at hseq
        have hd0 : downsample_channels r t s 0 = some t := by
          simp [downsample_channels]
        simp only [downsampleSeq, hd0] at hseq
        cases hxs : downsampleSeq r t s (List.map Nat.succ (List.range L')) with
        | none => rw [hxs] at hseq; cases hseq
        | some xs =>
            rw [hxs] at hseq
            have hls : ls = t :: xs := (Option.some.inj hseq).symm
            have hmapped : (ls.map tensorLastDim).Pairwise (fun x y => y ≤ x) := by
              rw [hmap]
              refine List.pairwise_map.mpr ?_
              refine (List.pairwise_le_range _).imp_of_mem ?_
              intro a b ha hb hab
              exact dLen_antitone hs2 hab (hpos a ha) (hpos b hb)
            have hlsp : ls.Pairwise (fun a b => tensorLastDim b ≤ tensorLastDim a) :=
              List.pairwise_map.mp hmapped
            have hded := @dedupByLen_pairwise ls [] hlsp
            have hdc : dedupByLen ls [] = t :: dedupByLen xs [tensorLastDim t] := by
              rw [hls]
              simp [dedupByLen]
            refine ⟨?_, ?_, ?_⟩
            · rw [hlvls, hdc]
              rfl
            · rw [hlvls, hdc]
              rfl
            · rw [hlvls]
              exact List.pairwise_map.mpr hded

/-- Counterexample to C3 as stated: on a one-sample signal (N = 1,
S = 50000) the builder computes ceil(log(1)/log(50000)) = 0 candidate
levels and returns an empty pyramid, so there is no level 0 holding the
input's N samples. -/
theorem pyramid_monotone_claim_false :
    create_downsampled_channels_list zeroResample [[[(1 : ℚ)]]] 50000
        = some [] ∧
      (List.map tensorLastDim ([] : List Level)).head?
        ≠ some (tensorLastDim [[[(1 : ℚ)]]]) := by
  constructor
  · decide
  · decide

/-- Witness for C3 (amended) at a concrete input: the level [[[1..8]]]
with chunk size 2 yields the two-level pyramid with sample-counts 8 and
4, strictly decreasing and headed by the unmodified input. -/
theorem pyramid_monotone_witness :
    ([[[[(1 : ℚ), 2, 3, 4, 5, 6, 7, 8]]],
        [[[(0 : ℚ), 0, 0, 0]]]] : List Level).head?
        = some [[[(1 : ℚ), 2, 3, 4, 5, 6, 7, 8]]] ∧
      (List.map tensorLastDim
          ([[[[(1 : ℚ), 2, 3, 4, 5, 6, 7, 8]]], [[[(0 : ℚ), 0, 0, 0]]]] : List Level)).head?
        = some (tensorLastDim [[[(1 : ℚ), 2, 3, 4, 5, 6, 7, 8]]]) ∧
      (List.map tensorLastDim
          ([[[[(1 : ℚ), 2, 3, 4, 5, 6, 7, 8]]], [[[(0 : ℚ), 0, 0, 0]]]] : List Level)).Pairwise
        (fun a b => b < a) :=
  pyramid_monotone zeroResample zeroResample_law
    [[[(1 : ℚ), 2, 3, 4, 5, 6, 7, 8]]] 2 (by decide) (by decide) (by decide)
    [[[[(1 : ℚ), 2, 3, 4, 5, 6, 7, 8]]], [[[(0 : ℚ), 0, 0, 0]]]] (by decide)

lemma rawSplitTail_no_sep {p : List Char} : ∀ c ∈ rawSplitTail p, (c != '/') = true := by
  intro c hc
  rw [rawSplitTail, List.mem_reverse] at hc
  exact @List.mem_takeWhile_imp Char (fun c => c != '/') p.reverse c hc

lemma rawSplitTail_of_no_sep {s : List Char}
    (hs : ∀ c ∈ s, (c != '/') = true) : rawSplitTail s = s := by
  rw [rawSplitTail, List.takeWhile_eq_self_iff.mpr, List.reverse_reverse]
  intro c hc
  exact hs c (List.mem_reverse.mp hc)

lemma rawSplitHead_of_append {a b p : List Char} (hab : a ++ b = p)
    (hb : b = rawSplitTail p) : rawSplitHead p = a := by
  rw [rawSplitHead, ← hb, ← hab, List.length_append]
  have h1 : a.length + b.length - b.length = a.length := by omega
  rw [h1]
  exact List.take_left a b

lemma rawSplitHead_of_no_sep {s : List Char}
    (hs : ∀ c ∈ s, (c != '/') = true) : rawSplitHead s = [] :=
  rawSplitHead_of_append (by simp) (rawSplitTail_of_no_sep hs).symm

lemma rawSplitTail_append {h s : List Char}
    (hs : ∀ c ∈ s, (c != '/') = true)
    (hh : h = [] ∨ h.getLast? = some '/') :
    rawSplitTail (h ++ s) = s := by
  have hsr : s.reverse.takeWhile (fun c => c != '/') = s.reverse :=
    List.takeWhile_eq_self_iff.mpr (fun c hc => hs c (List.mem_reverse.mp hc))
  have hhr : h.reverse.takeWhile (fun c => c != '/') = [] := by
    rcases hh with h0 | hl
    · simp [h0]
    · have : h.reverse.head? = some '/' := by
        rw [List.head?_reverse]
        exact hl
      cases hrev : h.reverse with
      | nil => simp
      | cons a t =>
          rw [hrev] at this
          have ha : a = '/' := by
            simpa using this
          simp [List.takeWhile_cons, ha]
  rw [rawSplitTail, List.reverse_append, List.takeWhile_append, hsr]
  simp [hhr]

lemma rawSplitHead_append {h s : List Char}
    (hs : ∀ c ∈ s, (c != '/') = true)
    (hh : h = [] ∨ h.getLast? = some '/') :
    rawSplitHead (h ++ s) = h :=
  rawSplitHead_of_append rfl (rawSplitTail_append hs hh).symm

lemma rawSplitHead_spec (p : List Char) :
    rawSplitHead p = [] ∨ (rawSplitHead p).getLast? = some '/' := by
  have hp : (p.reverse.dropWhile (fun c => c != '/')).reverse
      ++ rawSplitTail p = p := by
    rw [rawSplitTail, ← List.reverse_append, List.takeWhile_append_dropWhile,
      List.reverse_reverse]
  have hhead : rawSplitHead p = (p.reverse.dropWhile (fun c => c != '/')).reverse :=
    rawSplitHead_of_append hp rfl
  cases hdw : p.reverse.dropWhile (fun c => c != '/') with
  | nil =>
      left
      rw [hhead, hdw]
      rfl
  | cons a t =>
      right
      have hne : p.reverse.dropWhile (fun c => c != '/') ≠ [] := by simp [hdw]
      have hfalse := List.head_dropWhile_not (fun c => c != '/') p.reverse hne
      have ha : a = '/' := by
        have : (p.reverse.dropWhile (fun c => c != '/')).head hne = a := by
          simp [hdw]
        rw [this] at hfalse
        simpa using hfalse
      rw [hhead, hdw, List.getLast?_reverse]
      simp [ha]

lemma splitExtName_stem_subset {name : List Char} :
    ∀ c ∈ (splitExtName name).1, c ∈ name := by
  intro c hc
  rw [splitExtName] at hc
  by_cases h1 : (name.reverse.takeWhile (fun c => c != '.')).length = name.length
  · rw [if_pos h1] at hc
    exact hc
  · rw [if_neg h1] at hc
    by_cases h2 : (name.take (name.length -
        (name.reverse.takeWhile (fun c => c != '.')).length - 1)).any
        (fun c => c != '.')
    · rw [if_pos h2] at hc
      exact List.take_subset _ _ hc
    · rw [if_neg h2] at hc
      exact hc

/-- C9: for every input path, optional prefix and optional destination,
`chunk_dir_path` returns exactly the directory the spec describes:
join(destination-or-parent, prefix-or-nothing, basename-without-extension)
with `.chunks` appended (the source strips the extension before splitting
off the parent; the spec splits first and strips the basename, and the two
orders provably agree). -/
theorem chunk_dir_path_spec (input : List Char) (pfx : Option (List Char))
    (dest : Option (List Char)) :
    chunk_dir_path input pfx dest = specChunkDir input pfx dest := by
  have hs : ∀ c ∈ (splitExtName (rawSplitTail input)).1, (c != '/') = true :=
    fun c hc => rawSplitTail_no_sep c (splitExtName_stem_subset c hc)
  have hh := rawSplitHead_spec input
  have h1 : rawSplitTail (rawSplitHead input
      ++ (splitExtName (rawSplitTail input)).1)
      = (splitExtName (rawSplitTail input)).1 :=
    rawSplitTail_append hs hh
  have h2 : rawSplitHead (rawSplitHead input
      ++ (splitExtName (rawSplitTail input)).1)
      = rawSplitHead input :=
    rawSplitHead_append hs hh
  have h3 : rawSplitTail (rawSplitTail input) = rawSplitTail input :=
    rawSplitTail_of_no_sep (fun c hc => rawSplitTail_no_sep c hc)
  have h4 : rawSplitHead (rawSplitTail input) = [] :=
    rawSplitHead_of_no_sep (fun c hc => rawSplitTail_no_sep c hc)
  rw [chunk_dir_path, specChunkDir, os_path_splitext, os_path_split,
    os_path_split, os_path_splitext, h1, h2, h3, h4]
  rfl

/-- Concrete evaluation of C9 (no hypotheses in the theorem; this records
a sample instance): input `/data/sub/rec.set`, prefix `eeg`, destination
absent gives `/data/sub/eeg/rec.chunks`. -/
theorem chunk_dir_path_example :
    chunk_dir_path "/data/sub/rec.set".data (some "eeg".data) none
      = "/data/sub/eeg/rec.chunks".data := by
  decide

/-- C8: directory creation swallows exactly the already-exists failure,
stale-raw-tree removal swallows exactly the not-found failure, and every
other filesystem failure makes the operation return an error, aborting
the conversion of the current file (for removal the propagated exception
is the handler's own `NameError`, but it aborts all the same). -/
theorem error_swallowing (r : FsOutcome) :
    (create_path_dirs r = Except.ok () ↔ r = .ok ∨ r = .alreadyExists) ∧
      (remove_stale_raw r = Except.ok () ↔ r = .ok ∨ r = .notFound) ∧
      (¬(r = .ok ∨ r = .alreadyExists) → create_path_dirs r = Except.error r) ∧
      (¬(r = .ok ∨ r = .notFound) →
        remove_stale_raw r = Except.error PyError.nameError) := by
  cases r <;> simp [create_path_dirs, remove_stale_raw]

/-- Witness for C8 at the concrete outcome `otherError`: it is swallowed
by neither handler and both report an error. -/
theorem error_swallowing_witness :
    (create_path_dirs .otherError = Except.ok ()
        ↔ FsOutcome.otherError = .ok ∨ FsOutcome.otherError = .alreadyExists) ∧
      (remove_stale_raw .otherError = Except.ok ()
        ↔ FsOutcome.otherError = .ok ∨ FsOutcome.otherError = .notFound) ∧
      (¬(FsOutcome.otherError = .ok ∨ FsOutcome.otherError = .alreadyExists) →
        create_path_dirs .otherError = Except.error .otherError) ∧
      (¬(FsOutcome.otherError = .ok ∨ FsOutcome.otherError = .notFound) →
        remove_stale_raw .otherError = Except.error PyError.nameError) :=
  error_swallowing FsOutcome.otherError

lemma u32dec_u32le {n : Nat} (h : n < 4294967296) :
    u32dec (n % 256) (n / 256 % 256) (n / 65536 % 256) (n / 16777216 % 256) = n := by
  simp only [u32dec]
  omega

lemma decodeSamples_flatMap :
    ∀ {ws : List Nat}, (∀ w ∈ ws, w < 4294967296) →
      decodeSamples (ws.flatMap u32le) = some ws := by
  intro ws
  induction ws with
  | nil => intro _; rfl
  | cons w ws ih =>
      intro h
      have hw : w < 4294967296 := h w (List.mem_cons_self _ _)
      have hrest := ih (fun x hx => h x (List.mem_cons_of_mem _ hx))
      have hflat : (w :: ws).flatMap u32le
          = w % 256 :: w / 256 % 256 :: w / 65536 % 256
            :: w / 16777216 % 256 :: ws.flatMap u32le := by
        simp [List.flatMap_cons, u32le]
      rw [hflat]
      simp only [decodeSamples, hrest]
      rw [show Option.map (fun ws => u32dec (w % 256) (w / 256 % 256)
          (w / 65536 % 256) (w / 16777216 % 256) :: ws) (some ws)
          = some (u32dec (w % 256) (w / 256 % 256) (w / 65536 % 256)
            (w / 16777216 % 256) :: ws) from rfl]
      rw [u32dec_u32le hw]

/-- C5: decoding a serialized chunk record returns exactly the
(chunkIndex, levelOrdinal, samples) triple that was encoded — zero
words included, byte-for-byte — and the record consists of exactly the
three fields unsigned index, unsigned downsampling, and the samples, in
that order (`protocol_buffers/chunk_pb2` is not under src; the record
layout is modelled from the spec, with each float sample represented by
its 32-bit word). -/
theorem encode_chunk_roundtrip (index downsampling : Nat) (samples : List Nat)
    (hi : index < 4294967296) (hd : downsampling < 4294967296)
    (hs : ∀ w ∈ samples, w < 4294967296) :
    decode_chunk_bytes (encode_chunk_bytes index downsampling samples)
        = some (index, downsampling, samples) ∧
      encode_chunk_bytes index downsampling samples
        = u32le index ++ u32le downsampling ++ samples.flatMap u32le := by
  refine ⟨?_, rfl⟩
  simp only [encode_chunk_bytes, u32le, List.cons_append, List.nil_append,
    decode_chunk_bytes, decodeSamples_flatMap hs, Option.map_some]
  rw [u32dec_u32le hi, u32dec_u32le hd]
  rfl

/-- Witness for C5 at a concrete record: index 1, level 2, samples
[0, 4294967295] round-trip. -/
theorem encode_chunk_roundtrip_witness :
    decode_chunk_bytes (encode_chunk_bytes 1 2 [0, 4294967295])
        = some (1, 2, [0, 4294967295]) ∧
      encode_chunk_bytes 1 2 [0, 4294967295]
        = u32le 1 ++ u32le 2 ++ [0, 4294967295].flatMap u32le :=
  encode_chunk_roundtrip 1 2 [0, 4294967295] (by decide) (by decide) (by decide)

lemma rect3_tensorLastDim {t : Level} {a b c : Nat} (h : rect3 t a b c)
    (ha : 0 < a) (hb : 0 < b) : tensorLastDim t = c := by
  obtain ⟨hlen, hch⟩ := h
  cases t with
  | nil => simp at hlen; omega
  | cons ch rest =>
      obtain ⟨hchlen, htr⟩ := hch ch (List.mem_cons_self _ _)
      cases ch with
      | nil => simp at hchlen; omega
      | cons tr rest2 =>
          have := htr tr (List.mem_cons_self _ _)
          simp [tensorLastDim, this]

lemma takeChunks_length (k s : Nat) (xs : List ℚ) :
    (takeChunks k s xs).length = k := by
  induction k generalizing xs with
  | zero => rfl
  | succ k ih => simp [takeChunks, ih]

lemma takeChunks_mem_length {s : Nat} :
    ∀ (k : Nat) (xs : List ℚ), xs.length = k * s →
      ∀ c ∈ takeChunks k s xs, c.length = s := by
  intro k
  induction k with
  | zero => intro xs _ c hc; simp [takeChunks] at hc
  | succ k ih =>
      intro xs hlen c hc
      have hmul : (k + 1) * s = k * s + s := Nat.succ_mul k s
      simp only [takeChunks] at hc
      rcases List.mem_cons.mp hc with hc1 | hc2
      · subst hc1
        rw [List.length_take, hlen]
        omega
      · refine ih (xs.drop s) ?_ c hc2
        rw [List.length_drop, hlen]
        omega

lemma channels_to_chunks_length (tr : List ℚ) (s : Nat) :
    (channels_to_chunks tr s).length = numChunks tr.length s := by
  rw [channels_to_chunks, takeChunks_length]

lemma channels_to_chunks_mem_length {tr : List ℚ} {s : Nat} (hs : 0 < s) :
    ∀ c ∈ channels_to_chunks tr s, c.length = s :=
  takeChunks_mem_length (numChunks tr.length s) (pad_channels tr s)
    (pad_channels_length tr hs)

lemma rect4_of_rect3 {t : Level} {a b c : Nat} (s : Nat) (h : rect3 t a b c)
    (hs : 0 < s) :
    rect4 (channels_to_chunks_level t s) a b (numChunks c s) s := by
  obtain ⟨hlen, hch⟩ := h
  refine ⟨by simp [channels_to_chunks_level, hlen], ?_⟩
  intro ch2 hch2
  rcases List.mem_map.mp hch2 with ⟨ch, hchmem, rfl⟩
  obtain ⟨hchlen, htr⟩ := hch ch hchmem
  refine ⟨by simp [hchlen], ?_⟩
  intro tr2 htr2
  rcases List.mem_map.mp htr2 with ⟨tr, htrmem, rfl⟩
  refine ⟨?_, channels_to_chunks_mem_length hs⟩
  rw [channels_to_chunks_length, htr tr htrmem]

lemma downsample_channels_rect {r : List ℚ → Nat → List ℚ}
    (hres : ∀ (tr : List ℚ) (k : Nat), 0 < k →
      (r tr k).length = numChunks tr.length k)
    {t : Level} {s d : Nat} {t' : Level} {a b c : Nat}
    (h : rect3 t a b c) (ha : 0 < a) (hb : 0 < b)
    (hd : downsample_channels r t s d = some t') :
    rect3 t' a b (dLen s c d) := by
  have hN : tensorLastDim t = c := rect3_tensorLastDim h ha hb
  rcases downsample_channels_eq hd with ⟨hd0, rfl⟩ | ⟨hd0, hdf, rfl⟩
  · subst hd0
    rw [dLen_zero]
    exact h
  · rw [hN] at hdf
    obtain ⟨hlen, hch⟩ := h
    refine ⟨by simp [hlen], ?_⟩
    intro ch2 hch2
    rcases List.mem_map.mp hch2 with ⟨ch, hchmem, rfl⟩
    obtain ⟨hchlen, htr⟩ := hch ch hchmem
    refine ⟨by simp [hchlen], ?_⟩
    intro tr2 htr2
    rcases List.mem_map.mp htr2 with ⟨tr, htrmem, rfl⟩
    rw [hres tr _ (by rw [hN]; exact hdf), htr tr htrmem, hN]
    rfl

lemma dLen_pos {s n d : Nat} (hn : 0 < n) (hdf : 0 < downFactor s n d) :
    0 < dLen s n d :=
  numChunks_pos hn hdf

lemma downsample_channels_factor_pos {r : List ℚ → Nat → List ℚ}
    {t : Level} {s d : Nat} {t' : Level}
    (hd : downsample_channels r t s d = some t') :
    0 < downFactor s (tensorLastDim t) d := by
  rcases downsample_channels_eq hd with ⟨hd0, _⟩ | ⟨_, hdf, _⟩
  · subst hd0
    simp [downFactor]
  · exact hdf

lemma downsampleSeq_rect {r : List ℚ → Nat → List ℚ}
    (hres : ∀ (tr : List ℚ) (k : Nat), 0 < k →
      (r tr k).length = numChunks tr.length k)
    {t : Level} {s : Nat} {a b c : Nat}
    (h : rect3 t a b c) (ha : 0 < a) (hb : 0 < b) (hc : 0 < c) :
    ∀ (ds : List Nat) (ls : List Level), downsampleSeq r t s ds = some ls →
      ∀ lvl ∈ ls, ∃ c2, 0 < c2 ∧ rect3 lvl a b c2 := by
  intro ds
  induction ds with
  | nil =>
      intro ls h0 lvl hlvl
      simp [downsampleSeq] at h0
      subst h0
      simp at hlvl
  | cons d ds ih =>
      intro ls h0 lvl hlvl
      simp only [downsampleSeq] at h0
      cases hx : downsample_channels r t s d with
      | none => rw [hx] at h0; cases h0
      | some x =>
          rw [hx] at h0
          cases hxs : downsampleSeq r t s ds with
          | none => rw [hxs] at h0; cases h0
          | some xs =>
              rw [hxs] at h0
              have hls : ls = x :: xs := (Option.some.inj h0).symm
              subst hls
              rcases List.mem_cons.mp hlvl with rfl | hmem
              · have hN : tensorLastDim t = c := rect3_tensorLastDim h ha hb
                have hdf := downsample_channels_factor_pos hx
                rw [hN] at hdf
                exact ⟨dLen s c d, dLen_pos hc hdf,
                  downsample_channels_rect hres h ha hb hx⟩
              · exact ih xs hxs lvl hmem

lemma create_downsampled_rect {r : List ℚ → Nat → List ℚ}
    (hres : ∀ (tr : List ℚ) (k : Nat), 0 < k →
      (r tr k).length = numChunks tr.length k)
    {t : Level} {s : Nat} {a b c : Nat} {ls : List Level}
    (h : rect3 t a b c) (ha : 0 < a) (hb : 0 < b) (hc : 0 < c)
    (hcr : create_downsampled_channels_list r t s = some ls) :
    2 ≤ s ∧ ∀ lvl ∈ ls, ∃ c2, 0 < c2 ∧ rect3 lvl a b c2 := by
  unfold create_downsampled_channels_list at hcr
  by_cases hg : tensorLastDim t = 0 ∨ s ≤ 1
  · rw [if_pos hg] at hcr
    cases hcr
  · rw [if_neg hg] at hcr
    refine ⟨by omega, ?_⟩
    cases hseq : downsampleSeq r t s
        (List.range (ceilLog s (tensorLastDim t))) with
    | none => rw [hseq] at hcr; cases hcr
    | some ls0 =>
        rw [hseq] at hcr
        have hls : ls = dedupByLen ls0 [] := (Option.some.inj hcr).symm
        subst hls
        intro lvl hlvl
        have hmem := (mem_dedupByLen hlvl).1
        exact downsampleSeq_rect hres h ha hb hc _ ls0 hseq lvl hmem

lemma chunkShape_of_rect4 {t : ChunkedLevel} {a b k d : Nat}
    (h : rect4 t a b k d) (ha : 0 < a) (hb : 0 < b) (hk : 0 < k) :
    chunkShape t = [a, b, k, d] := by
  obtain ⟨hlen, hch⟩ := h
  cases t with
  | nil => simp at hlen; omega
  | cons ch rest =>
      obtain ⟨hchlen, htr⟩ := hch ch (List.mem_cons_self _ _)
      cases ch with
      | nil => simp at hchlen; omega
      | cons tr rest2 =>
          obtain ⟨htrlen, hc⟩ := htr tr (List.mem_cons_self _ _)
          cases tr with
          | nil => simp at htrlen; omega
          | cons c0 rest3 =>
              have hc0 := hc c0 (List.mem_cons_self _ _)
              simp only [chunkShape, List.headD_cons]
              simp at hlen hchlen htrlen
              simp [hlen, hchlen, htrlen, hc0]

lemma eeglab_to_chunks_rect {r : List ℚ → Nat → List ℚ}
    (hres : ∀ (tr : List ℚ) (k : Nat), 0 < k →
      (r tr k).length = numChunks tr.length k)
    {channels : List (List ℚ)} {n s : Nat} {ccl : List ChunkedLevel}
    (hne : channels ≠ []) (hrect : ∀ c ∈ channels, c.length = n)
    (hn : 0 < n)
    (hout : eeglab_to_chunks r channels s = some ccl) :
    2 ≤ s ∧ ∀ t ∈ ccl, ∃ k, 0 < k ∧ rect4 t channels.length 1 k s ∧
      chunkShape t = [channels.length, 1, k, s] := by
  unfold eeglab_to_chunks at hout
  cases hcr : create_downsampled_channels_list r
      (channels.map (fun c => [c])) s with
  | none => rw [hcr] at hout; cases hout
  | some lvls =>
      rw [hcr] at hout
      have hccl : ccl = create_chunks_from_channels_list lvls s :=
        (Option.some.inj hout).symm
      subst hccl
      have hexp : rect3 (channels.map (fun c => [c])) channels.length 1 n := by
        refine ⟨by simp, ?_⟩
        intro ch hch
        rcases List.mem_map.mp hch with ⟨c, hcmem, rfl⟩
        refine ⟨rfl, ?_⟩
        intro tr htr
        rcases List.mem_cons.mp htr with rfl | habs
        · exact hrect tr hcmem
        · simp at habs
      have hane : 0 < channels.length := List.length_pos.mpr hne
      obtain ⟨hs2, hlvl⟩ :=
        create_downsampled_rect hres hexp hane (by omega) hn hcr
      refine ⟨hs2, ?_⟩
      intro t ht
      rcases List.mem_map.mp ht with ⟨lvl, hlvlmem, rfl⟩
      obtain ⟨c2, hc2, hr3⟩ := hlvl lvl hlvlmem
      have hr4 := rect4_of_rect3 s hr3 (by omega)
      refine ⟨numChunks c2 s, numChunks_pos hc2 (by omega), hr4, ?_⟩
      exact chunkShape_of_rect4 hr4 hane (by omega)
        (numChunks_pos hc2 (by omega))

/-- C7 (amended): every encoded chunk is written as an individual file
whose path is `<chunkDir>/raw/<levelOrdinal>/<channelIndex>/<traceIndex>/
<chunkIndex>.buf` — the positional indices of that chunk in the level
list — and the index document is written at `<chunkDir>/index.json`.
The original claim omits the `.buf` suffix and names the index file
`index`: see `write_paths_claim_false`. -/
theorem write_paths (dir : List Char) (ts : List ChunkedLevel)
    (tI : ℚ × ℚ) (cs : Nat) (ds : List Nat) (tt : List (Nat × String)) :
    (write_index_json dir tI cs ds ts tt).1
        = os_path_join dir ["index.json".data] ∧
      ∀ e ∈ write_chunks dir ts, ∃ (d ch tr ci : Nat) (lvl : ChunkedLevel)
        (chans : List (List (List ℚ))) (trc : List (List ℚ)) (chunk : List ℚ),
        ts[d]? = some lvl ∧ lvl[ch]? = some chans ∧
        chans[tr]? = some trc ∧ trc[ci]? = some chunk ∧
        e.2 = encode_chunk chunk ci d ∧
        e.1 = [dir, "raw".data, (toString d).data, (toString ch).data,
          (toString tr).data, (toString ci ++ ".buf").data] := by
  refine ⟨rfl, ?_⟩
  intro e he
  rw [write_chunks] at he
  rcases List.mem_flatMap.mp he with ⟨p, hp, he1⟩
  rcases List.mem_flatMap.mp he1 with ⟨q, hq, he2⟩
  rcases List.mem_flatMap.mp he2 with ⟨u, hu, he3⟩
  rcases List.mem_map.mp he3 with ⟨v, hv, he4⟩
  refine ⟨p.1, q.1, u.1, v.1, p.2, q.2, u.2, v.2, ?_, ?_, ?_, ?_, ?_, ?_⟩
  · exact List.mem_enum_iff_getElem?.mp hp
  · exact List.mem_enum_iff_getElem?.mp hq
  · exact List.mem_enum_iff_getElem?.mp hu
  · exact List.mem_enum_iff_getElem?.mp hv
  · rw [← he4]
  · rw [← he4]

/-- Counterexample to C7 as stated: for one single-sample chunk the file
is written at `d/raw/0/0/0/0.buf`, not at the claimed `d/raw/0/0/0/0`,
and the index document goes to `d/index.json`, not to the claimed
`d/index`. -/
theorem write_paths_claim_false :
    (write_chunks "d".data [[[[[(1 : ℚ)]]]]]).map Prod.fst
        = [["d".data, "raw".data, "0".data, "0".data, "0".data,
            "0.buf".data]] ∧
      ["d".data, "raw".data, "0".data, "0".data, "0".data, "0.buf".data]
        ≠ ["d".data, "raw".data, "0".data, "0".data, "0".data, "0".data] ∧
      (write_index_json "d".data (0, 0) 1 [] [] []).1 = "d/index.json".data ∧
      ("d/index.json".data : List Char) ≠ "d/index".data := by
  refine ⟨by decide, by decide, by decide, by decide⟩

/-- Witness for C7 (amended) at a concrete write: the single entry of a
one-chunk conversion is characterized by the theorem. -/
theorem write_paths_witness :
    ∃ (d ch tr ci : Nat) (lvl : ChunkedLevel)
      (chans : List (List (List ℚ))) (trc : List (List ℚ)) (chunk : List ℚ),
      ([[[[[(1 : ℚ)]]]]] : List ChunkedLevel)[d]? = some lvl ∧
      lvl[ch]? = some chans ∧ chans[tr]? = some trc ∧
      trc[ci]? = some chunk ∧
      (["d".data, "raw".data, "0".data, "0".data, "0".data,
          "0.buf".data], encode_chunk [(1 : ℚ)] 0 0).2
        = encode_chunk chunk ci d ∧
      (["d".data, "raw".data, "0".data, "0".data, "0".data,
          "0.buf".data], encode_chunk [(1 : ℚ)] 0 0).1
        = ["d".data, "raw".data, (toString d).data, (toString ch).data,
          (toString tr).data, (toString ci ++ ".buf").data] :=
  (write_paths "d".data [[[[[(1 : ℚ)]]]]] (0, 0) 1 [] []).2
    (["d".data, "raw".data, "0".data, "0".data, "0".data, "0.buf".data],
      encode_chunk [(1 : ℚ)] 0 0) (by decide)

/-- C6: for every successful conversion run on a nonempty rectangular
signal, the index document has downsamplings exactly the positional
ordinals 0..L-1 for the L kept levels, one shape entry per kept level
equal to that level's persisted chunk tensor extents
(channels x traces x chunkCount x chunkSize, with traces = 1), hence
equally many downsamplings and shapes, and traceTypes defaulted to the
empty mapping; the chunk tree is written from exactly those levels. -/
theorem index_consistency (r : List ℚ → Nat → List ℚ)
    (hres : ∀ (tr : List ℚ) (k : Nat), 0 < k →
      (r tr k).length = numChunks tr.length k)
    (channels : List (List ℚ)) (n : Nat) (time_interval : ℚ × ℚ)
    (path : List Char) (pfx dest : Option (List Char)) (s : Nat)
    (hne : channels ≠ []) (hrect : ∀ c ∈ channels, c.length = n)
    (hn : 0 < n)
    (out : (List Char × IndexJson) × List (List (List Char) × FloatChunk))
    (hout : write_eeglab_chunks r channels time_interval path pfx dest s
      = some out) :
    ∃ ccl, eeglab_to_chunks r channels s = some ccl ∧
      out.1.2.downsamplings = List.range ccl.length ∧
      out.1.2.shapes = ccl.map chunkShape ∧
      out.1.2.downsamplings.length = out.1.2.shapes.length ∧
      out.1.2.traceTypes = [] ∧
      out.2 = write_chunks (chunk_dir_path path pfx dest) ccl ∧
      ∀ t ∈ ccl, ∃ k, 0 < k ∧ chunkShape t = [channels.length, 1, k, s] ∧
        rect4 t channels.length 1 k s := by
  unfold write_eeglab_chunks at hout
  cases hconv : eeglab_to_chunks r channels s with
  | none => rw [hconv] at hout; cases hout
  | some ccl =>
      rw [hconv] at hout
      have h2 := (Option.some.inj hout).symm
      subst h2
      obtain ⟨hs2, hsh⟩ := eeglab_to_chunks_rect hres hne hrect hn hconv
      refine ⟨ccl, rfl, rfl, rfl, ?_, rfl, rfl, ?_⟩
      · simp [write_index_json]
      · intro t ht
        obtain ⟨k, hk, hr4, hshape⟩ := hsh t ht
        exact ⟨k, hk, hshape, hr4⟩

/-- Witness for C6 at a concrete run: one channel of three samples,
chunk size 3, yields downsamplings [0], shapes [[1,1,1,3]], empty
traceTypes, and a chunk tree matching the single kept level. -/
theorem index_consistency_witness :
    ∃ ccl, eeglab_to_chunks zeroResample [[(1 : ℚ), 2, 3]] 3 = some ccl ∧
      ((("rec.chunks/index.json".data,
          (⟨(0, 1), 3, [0], [[1, 1, 1, 3]], []⟩ : IndexJson)),
        [(["rec.chunks".data, "raw".data, "0".data, "0".data, "0".data,
            "0.buf".data], encode_chunk [(1 : ℚ), 2, 3] 0 0)])).1.2.downsamplings
        = List.range ccl.length ∧
      ((("rec.chunks/index.json".data,
          (⟨(0, 1), 3, [0], [[1, 1, 1, 3]], []⟩ : IndexJson)),
        [(["rec.chunks".data, "raw".data, "0".data, "0".data, "0".data,
            "0.buf".data], encode_chunk [(1 : ℚ), 2, 3] 0 0)])).1.2.shapes
        = ccl.map chunkShape ∧
      ((("rec.chunks/index.json".data,
          (⟨(0, 1), 3, [0], [[1, 1, 1, 3]], []⟩ : IndexJson)),
        [(["rec.chunks".data, "raw".data, "0".data, "0".data, "0".data,
            "0.buf".data], encode_chunk [(1 : ℚ), 2, 3] 0 0)])).1.2.downsamplings.length
        = ((("rec.chunks/index.json".data,
          (⟨(0, 1), 3, [0], [[1, 1, 1, 3]], []⟩ : IndexJson)),
        [(["rec.chunks".data, "raw".data, "0".data, "0".data, "0".data,
            "0.buf".data], encode_chunk [(1 : ℚ), 2, 3] 0 0)])).1.2.shapes.length ∧
      ((("rec.chunks/index.json".data,
          (⟨(0, 1), 3, [0], [[1, 1, 1, 3]], []⟩ : IndexJson)),
        [(["rec.chunks".data, "raw".data, "0".data, "0".data, "0".data,
            "0.buf".data], encode_chunk [(1 : ℚ), 2, 3] 0 0)])).1.2.traceTypes = [] ∧
      ((("rec.chunks/index.json".data,
          (⟨(0, 1), 3, [0], [[1, 1, 1, 3]], []⟩ : IndexJson)),
        [(["rec.chunks".data, "raw".data, "0".data, "0".data, "0".data,
            "0.buf".data], encode_chunk [(1 : ℚ), 2, 3] 0 0)])).2
        = write_chunks (chunk_dir_path "rec.set".data none none) ccl ∧
      ∀ t ∈ ccl, ∃ k, 0 < k ∧
        chunkShape t = [([[(1 : ℚ), 2, 3]] : List (List ℚ)).length, 1, k, 3] ∧
        rect4 t ([[(1 : ℚ), 2, 3]] : List (List ℚ)).length 1 k 3 :=
  index_consistency zeroResample zeroResample_law [[(1 : ℚ), 2, 3]] 3 (0, 1)
    "rec.set".data none none 3 (by decide) (by decide) (by decide)
    ((("rec.chunks/index.json".data,
        (⟨(0, 1), 3, [0], [[1, 1, 1, 3]], []⟩ : IndexJson)),
      [(["rec.chunks".data, "raw".data, "0".data, "0".data, "0".data,
          "0.buf".data], encode_chunk [(1 : ℚ), 2, 3] 0 0)])) (by decide)

/-- C10: the pipeline inserts a singleton trace axis unconditionally:
in every successful conversion of a nonempty rectangular signal every
level's channels hold exactly one trace, every persisted level shape is
[channelCount, 1, chunkCount, chunkSize], and every written chunk path
has trace component "0". -/
theorem singleton_trace (r : List ℚ → Nat → List ℚ)
    (hres : ∀ (tr : List ℚ) (k : Nat), 0 < k →
      (r tr k).length = numChunks tr.length k)
    (channels : List (List ℚ)) (n s : Nat) (dir : List Char)
    (hne : channels ≠ []) (hrect : ∀ c ∈ channels, c.length = n)
    (hn : 0 < n) (ccl : List ChunkedLevel)
    (hout : eeglab_to_chunks r channels s = some ccl) :
    (∀ t ∈ ccl, ∀ ch ∈ t, ch.length = 1) ∧
      (∀ t ∈ ccl, ∃ k, 0 < k ∧ chunkShape t = [channels.length, 1, k, s]) ∧
      (∀ e ∈ write_chunks dir ccl, e.1[4]? = some "0".data) := by
  obtain ⟨hs2, hsh⟩ := eeglab_to_chunks_rect hres hne hrect hn hout
  have htr1 : ∀ t ∈ ccl, ∀ ch ∈ t, ch.length = 1 := by
    intro t ht ch hch
    obtain ⟨k, hk, hr4, _⟩ := hsh t ht
    exact (hr4.2 ch hch).1
  refine ⟨htr1, ?_, ?_⟩
  · intro t ht
    obtain ⟨k, hk, _, hshape⟩ := hsh t ht
    exact ⟨k, hk, hshape⟩
  · intro e he
    rw [write_chunks] at he
    rcases List.mem_flatMap.mp he with ⟨p, hp, he1⟩
    rcases List.mem_flatMap.mp he1 with ⟨q, hq, he2⟩
    rcases List.mem_flatMap.mp he2 with ⟨u, hu, he3⟩
    rcases List.mem_map.mp he3 with ⟨v, hv, he4⟩
    have hpmem : p.2 ∈ ccl :=
      List.getElem?_mem (List.mem_enum_iff_getElem?.mp hp)
    have hqmem : q.2 ∈ p.2 :=
      List.getElem?_mem (List.mem_enum_iff_getElem?.mp hq)
    have hq1 : q.2.length = 1 := htr1 p.2 hpmem q.2 hqmem
    have hu0 : u.1 = 0 := by
      have := (List.getElem?_eq_some.mp (List.mem_enum_iff_getElem?.mp hu)).1
      omega
    rw [← he4]
    have h0 : (toString (0 : Nat)).data = "0".data := by decide
    simp [hu0, h0]

/-- Witness for C10 at a concrete run: one channel of three samples,
chunk size 3: the single level has one trace per channel, shape
[1,1,1,3], and the single chunk path has trace component "0". -/
theorem singleton_trace_witness :
    (∀ t ∈ ([[[[[(1 : ℚ), 2, 3]]]]] : List ChunkedLevel),
        ∀ ch ∈ t, ch.length = 1) ∧
      (∀ t ∈ ([[[[[(1 : ℚ), 2, 3]]]]] : List ChunkedLevel), ∃ k, 0 < k ∧
        chunkShape t = [([[(1 : ℚ), 2, 3]] : List (List ℚ)).length, 1, k, 3]) ∧
      (∀ e ∈ write_chunks "dir".data [[[[[(1 : ℚ), 2, 3]]]]],
        e.1[4]? = some "0".data) :=
  singleton_trace zeroResample zeroResample_law [[(1 : ℚ), 2, 3]] 3 3
    "dir".data (by decide) (by decide) (by decide)
    [[[[[(1 : ℚ), 2, 3]]]]] (by decide)
